import Mathlib

/-
  Shallow embedding of the VectroLabs/env configuration pipeline
  (src/lib/main.js): the line-oriented parser, the variable-expansion
  engine with cycle and depth protection, the schema validator with
  type conversion, and the reverse serializer.  The JavaScript runtime
  environment store (process.env) is modelled as an explicit read-only
  lookup parameter, and the host JSON parser (JSON.parse) as an
  abstract parameter.  JavaScript strings are modelled as Lean strings
  (lists of characters); machine floats produced by Number() are
  modelled with exact rationals plus the NaN and infinity tags, which
  is adequate here because no claim depends on float rounding.
-/

deriving instance DecidableEq for Except

namespace VectroEnv

/-- External read-only lookup standing for the process environment. -/
abbrev Lookup : Type := String → Option String

/-- The empty external lookup (no environment variable set). -/
def extEmpty : Lookup := fun _ => none

/-- Parsed environment: insertion-ordered key/value mapping, as a JS object. -/
abbrev Env : Type := List (String × String)

/-- Character class removed by the JavaScript trim and matched by the
regex whitespace class, restricted to the characters that can occur here. -/
def isJsWs (c : Char) : Bool :=
  c == ' ' || c == '\t' || c == '\n' || c == '\r' || c == '\x0b' ||
  c == '\x0c' || c == '\u00A0' || c == '\uFEFF'

/-- JavaScript String.prototype.trim on a character list. -/
def jsTrimList (cs : List Char) : List Char :=
  ((cs.dropWhile isJsWs).reverse.dropWhile isJsWs).reverse

/-- JavaScript String.prototype.trim. -/
def jsTrim (s : String) : String := ⟨jsTrimList s.data⟩

/-- JavaScript String.prototype.toLowerCase, on the ASCII range used here. -/
def lowerS (s : String) : String := ⟨s.data.map Char.toLower⟩

/-- Splitting on the line separator regex of parse: a newline optionally
preceded by a carriage return.  A lone carriage return does not split. -/
def splitLines : List Char → List (List Char)
  | [] => [[]]
  | '\r' :: '\n' :: rest => [] :: splitLines rest
  | '\n' :: rest => [] :: splitLines rest
  | c :: rest =>
    match splitLines rest with
    | [] => [[c]]
    | l :: ls => (c :: l) :: ls

/-- Property lookup in a JS-object-like association list. -/
def lookupEnv : List (String × String) → String → Option String
  | [], _ => none
  | (k, v) :: rest, key => if k = key then some v else lookupEnv rest key

/-- JS object assignment obj[key] = value: overwrite in place, else append. -/
def upsertEnv : Env → String → String → Env
  | [], k, v => [(k, v)]
  | (k', v') :: rest, k, v =>
    if k' = k then (k, v) :: rest else (k', v') :: upsertEnv rest k v

/-- The JavaScript or-else idiom a or b on string-or-undefined values:
an empty string is falsy and falls through to the second operand. -/
def jsOr (a b : Option String) : Option String :=
  match a with
  | some v => if v = "" then b else some v
  | none => b

/-- Errors raised by expandVariables.  The source raises Error values whose
messages distinguish the depth failure, the circular-reference failure
(carrying the chain of names from first visited to the repeated one) and
the per-variable wrapping added while an inner failure propagates. -/
inductive ExpandError : Type where
  | depthExceeded : ExpandError
  | circular (chain : List String) : ExpandError
  | wrapped (name : String) (inner : ExpandError) : ExpandError
deriving DecidableEq, Repr

/-- Root cause of a possibly wrapped expansion error. -/
def ExpandError.root : ExpandError → ExpandError
  | .wrapped _ inner => inner.root
  | e => e

/-- Tokens recognized by the replace regex of expandVariables: plain
characters and variable references. -/
inductive Tok : Type where
  | lit (c : Char) : Tok
  | ref (name : String) : Tok
deriving DecidableEq, Repr

/-- Characters up to the first closing brace: content and remainder. -/
def takeToBrace : List Char → Option (List Char × List Char)
  | [] => none
  | c :: r =>
    if c = '\x7d' then some ([], r)
    else (takeToBrace r).map (fun p => (c :: p.1, p.2))

/-- First character of an unbraced variable name. -/
def isNameStart (c : Char) : Bool :=
  ('A' ≤ c && c ≤ 'Z') || ('a' ≤ c && c ≤ 'z') || c == '_'

/-- Subsequent character of an unbraced variable name. -/
def isNameChar (c : Char) : Bool :=
  isNameStart c || ('0' ≤ c && c ≤ '9')

/-- Left-to-right non-overlapping scan of the expansion regex: a braced
reference takes everything up to the first closing brace (non-empty),
an unbraced reference takes the maximal identifier run, and at a failed
match the scanner advances one character.  Fuel bounds the scan; the
callers always supply at least the length of the input. -/
def tokenizeF : Nat → List Char → List Tok
  | 0, _ => []
  | Nat.succ _, [] => []
  | Nat.succ f, c :: rest =>
    if c = '$' then
      match rest with
      | [] => [.lit '$']
      | c2 :: r2 =>
        if c2 = '\x7b' then
          match takeToBrace r2 with
          | some (content, after) =>
            if content = [] then .lit '$' :: tokenizeF f rest
            else .ref ⟨content⟩ :: tokenizeF f after
          | none => .lit '$' :: tokenizeF f rest
        else if isNameStart c2 then
          .ref ⟨(c2 :: r2).takeWhile isNameChar⟩ ::
            tokenizeF f ((c2 :: r2).dropWhile isNameChar)
        else .lit '$' :: tokenizeF f rest
    else .lit c :: tokenizeF f rest

/-- Tokenization of a value for variable expansion. -/
def tokenize (cs : List Char) : List Tok := tokenizeF cs.length cs

/-- Processing of the token list of one value: per reference, check the
visiting set, resolve through the parsed mapping with fall-through to the
external lookup, substitute the empty string when unresolved, and hand a
replacement that still contains a dollar sign to the recursive expansion
step with the name added to a copy of the visiting set.  A failure inside
a reference aborts the remaining scan, as a throwing replace callback does. -/
def goToks (parsed : Env) (ext : Lookup)
    (step : String → List String → Except ExpandError (List Char))
    (vis : List String) : List Tok → Except ExpandError (List Char)
  | [] => .ok []
  | .lit c :: ts => (goToks parsed ext step vis ts).map (fun t => c :: t)
  | .ref name :: ts =>
    if name ∈ vis then .error (.circular (vis ++ [name]))
    else
      match jsOr (lookupEnv parsed name) (ext name) with
      | none => goToks parsed ext step vis ts
      | some repl =>
        if '$' ∈ repl.data then
          match (step repl (vis ++ [name])).mapError (.wrapped name) with
          | .error e => .error e
          | .ok r => (goToks parsed ext step vis ts).map (fun t => r ++ t)
        else (goToks parsed ext step vis ts).map (fun t => repl.data ++ t)

/-- Depth-indexed expansion.  The fuel is 101 minus the current depth, so
fuel zero is exactly the source's entry check depth greater than 100, and
each recursive expansion of a replacement runs at depth plus one. -/
def expandFuel (parsed : Env) (ext : Lookup) :
    Nat → String → List String → Except ExpandError (List Char)
  | 0, _, _ => .error .depthExceeded
  | Nat.succ f, value, vis =>
    goToks parsed ext (fun v' vis' => expandFuel parsed ext f v' vis') vis
      (tokenize value.data)

/-- The expandVariables function of the source: expand the references in
value against the already parsed mapping and the external lookup, with
the given visiting set and recursion depth. -/
def expandVariables (ext : Lookup) (value : String) (parsed : Env)
    (vis : List String) (depth : Nat) : Except ExpandError String :=
  (expandFuel parsed ext (101 - depth) value vis).map (fun cs => ⟨cs⟩)

/-- Left-to-right global replacement of a two-character escape (backslash
followed by target) with its replacement character, advancing one character
when no match starts at the current position. -/
def replaceEsc (target repl : Char) : List Char → List Char
  | [] => []
  | c :: rest =>
    if c = '\\' then
      match rest with
      | [] => ['\\']
      | c2 :: r2 =>
        if c2 = target then repl :: replaceEsc target repl r2
        else '\\' :: replaceEsc target repl (c2 :: r2)
    else c :: replaceEsc target repl rest

/-- The unescape chain of parse, applied in source order: backslash-n,
backslash-r, backslash-t, double backslash, backslash-quote for both
quote characters.  The replacements are sequential global passes, each
running on the output of the previous one. -/
def unescapeJs (cs : List Char) : List Char :=
  replaceEsc '\'' '\''
    (replaceEsc '"' '"'
      (replaceEsc '\\' '\\'
        (replaceEsc 't' '\t'
          (replaceEsc 'r' '\r'
            (replaceEsc 'n' '\n' cs)))))

/-- Quote handling of parse: when the trimmed value both starts and ends
with the same quote character, strip the first and last character and run
the unescape chain; otherwise keep the value verbatim. -/
def parseValueChars (v : List Char) : List Char :=
  if (v.head? = some '"' ∧ v.getLast? = some '"') ∨
     (v.head? = some '\'' ∧ v.getLast? = some '\'') then
    unescapeJs (v.drop 1).dropLast
  else v

/-- Position of the first equals sign: the characters before it and after
it, or none when the line has no equals sign. -/
def splitAtEq? : List Char → Option (List Char × List Char)
  | [] => none
  | c :: r =>
    if c = '=' then some ([], r)
    else (splitAtEq? r).map (fun p => (c :: p.1, p.2))

/-- Line continuation of parse: while the accumulated line ends with a
backslash and a next line exists, drop the backslash and append the next
line trimmed, consuming it. -/
def joinCont : List Char → List (List Char) → List Char × List (List Char)
  | line, [] => (line, [])
  | line, r :: rest =>
    if line.getLast? = some '\\' then joinCont (line.dropLast ++ jsTrimList r) rest
    else (line, r :: rest)

/-- Processing of one (continuation-resolved) line: locate the first
equals sign (skip the line if none), trim the key (skip if empty), trim
the value, apply quote handling, expand variables against the mapping
built so far, and assign the result to the key. -/
def processLine (ext : Lookup) (line : List Char) (acc : Env) :
    Except ExpandError Env :=
  match splitAtEq? line with
  | none => .ok acc
  | some (pre, post) =>
    let key := jsTrimList pre
    if key = [] then .ok acc
    else
      let value := jsTrimList post
      let pv := parseValueChars value
      match expandVariables ext (⟨pv⟩ : String) acc [] 0 with
      | .error e => .error e
      | .ok ev => .ok (upsertEnv acc (⟨key⟩ : String) ev)

/-- The line loop of parse.  Fuel bounds the number of iterations; parse
supplies the number of lines, which suffices because every iteration
consumes at least one line. -/
def parseLinesF (ext : Lookup) : Nat → List (List Char) → Env →
    Except ExpandError Env
  | 0, _, acc => .ok acc
  | Nat.succ _, [], acc => .ok acc
  | Nat.succ f, l :: rest, acc =>
    let line := jsTrimList l
    if line = [] ∨ line.head? = some '#' then parseLinesF ext f rest acc
    else
      let lr := joinCont line rest
      match processLine ext lr.1 acc with
      | .error e => .error e
      | .ok acc2 => parseLinesF ext f lr.2 acc2

/-- The parse function of the source: split the content into lines, skip
blank and comment lines, resolve continuations, and process each
assignment in order against the mapping built so far. -/
def parse (ext : Lookup) (content : String) : Except ExpandError Env :=
  let lines := splitLines content.data
  parseLinesF ext lines.length lines []

end VectroEnv

namespace VectroEnv

/-- A value needs quoting in generate when it contains whitespace, a quote
character, a dollar sign, a brace, or a backslash. -/
def needsQuotes (cs : List Char) : Bool :=
  cs.any (fun c =>
    isJsWs c || c == '"' || c == '\'' || c == '$' ||
    c == '\x7b' || c == '\x7d' || c == '\\')

/-- Global replacement of each backslash by two backslashes. -/
def escBackslash : List Char → List Char
  | [] => []
  | c :: rest =>
    if c = '\\' then '\\' :: '\\' :: escBackslash rest
    else c :: escBackslash rest

/-- Global replacement of each double quote by backslash and quote. -/
def escQuote : List Char → List Char
  | [] => []
  | c :: rest =>
    if c = '"' then '\\' :: '"' :: escQuote rest
    else c :: escQuote rest

/-- Whether every backslash of the list is immediately followed by a
double quote, the shape the escaping of generate produces on
backslash-free input. -/
def bsq : List Char → Bool
  | [] => true
  | c :: rest =>
    if c = '\\' then
      match rest with
      | [] => false
      | c2 :: r2 => if c2 = '"' then bsq r2 else false
    else bsq rest

/-- Lexicographic comparison of character lists by code point, as the
default JavaScript array sort compares strings. -/
def charListLe : List Char → List Char → Bool
  | [], _ => true
  | _ :: _, [] => false
  | a :: as, b :: bs =>
    if a < b then true else if b < a then false else charListLe as bs

/-- String comparison for the key sort of generate. -/
def strLeB (a b : String) : Bool := charListLe a.data b.data

/-- Ordered insertion for the key sort. -/
def insertStr (x : String) : List String → List String
  | [] => [x]
  | y :: ys => if strLeB y x then y :: insertStr x ys else x :: y :: ys

/-- Ascending sort of the selected keys. -/
def insertionSortStr : List String → List String
  | [] => []
  | x :: xs => insertStr x (insertionSortStr xs)

/-- Joining generated lines with newlines, without a trailing newline. -/
def joinLinesNl : List (List Char) → List Char
  | [] => []
  | [l] => l
  | l :: ls => l ++ '\n' :: joinLinesNl ls

/-- The generate function of the source: select the keys of the source
mapping, keep those in the include list when one is given, drop those in
the exclude list, sort when requested, and emit one KEY=VALUE line per
key, double-quoting and escaping values that need it. -/
def generate (source : Env) (includeOpt : Option (List String))
    (exclude : List String) (sortFlag : Bool) : String :=
  let keys := source.map Prod.fst
  let keys := match includeOpt with
    | some inc => keys.filter (fun k => inc.contains k)
    | none => keys
  let keys := if exclude.length > 0 then
      keys.filter (fun k => !(exclude.contains k))
    else keys
  let keys := if sortFlag then insertionSortStr keys else keys
  let lines := keys.map (fun k =>
    let v := (lookupEnv source k).getD ""
    k.data ++ '=' ::
      (if needsQuotes v.data then
        '"' :: (escQuote (escBackslash v.data) ++ ['"'])
      else v.data))
  ⟨joinLinesNl lines⟩

end VectroEnv

namespace VectroEnv

/-- Numeric result of the JavaScript Number() conversion: the NaN, the two
infinities, or a finite value, here represented exactly as a rational. -/
inductive JsNumber : Type where
  | nan : JsNumber
  | infinity : JsNumber
  | negInfinity : JsNumber
  | finite (v : ℚ) : JsNumber
deriving DecidableEq, Repr

/-- Negation of a JavaScript number. -/
def JsNumber.neg : JsNumber → JsNumber
  | .nan => .nan
  | .infinity => .negInfinity
  | .negInfinity => .infinity
  | .finite v => .finite (-v)

/-- Decimal digit test. -/
def isDigitCh (c : Char) : Bool := '0' ≤ c && c ≤ '9'

/-- Value of a run of decimal digits. -/
def digitsVal (cs : List Char) : Nat :=
  cs.foldl (fun acc c => acc * 10 + (c.toNat - 48)) 0

/-- Value of a hexadecimal digit, when it is one. -/
def hexDigitVal? (c : Char) : Option Nat :=
  if '0' ≤ c && c ≤ '9' then some (c.toNat - 48)
  else if 'a' ≤ c && c ≤ 'f' then some (c.toNat - 87)
  else if 'A' ≤ c && c ≤ 'F' then some (c.toNat - 55)
  else none

/-- Value of a run of digits in the given base, or none when some
character is not a digit of the base or the run is empty. -/
def baseDigitsVal? (base : Nat) (cs : List Char) : Option Nat :=
  if cs = [] then none
  else
    cs.foldl
      (fun acc c =>
        acc.bind (fun a =>
          (hexDigitVal? c).bind (fun d =>
            if d < base then some (a * base + d) else none)))
      (some 0)

/-- Parsing of the decimal part of the Number() grammar, after an optional
sign: the literal Infinity, or decimal digits with an optional fraction
and an optional exponent.  Returns none exactly when Number() yields NaN. -/
def decNumber? (cs : List Char) : Option JsNumber :=
  if cs = "Infinity".data then some .infinity
  else
    let intPart := cs.takeWhile isDigitCh
    let rest1 := cs.dropWhile isDigitCh
    let fracSplit : List Char × List Char :=
      match rest1 with
      | '.' :: r => (r.takeWhile isDigitCh, r.dropWhile isDigitCh)
      | _ => ([], rest1)
    match fracSplit with
    | (fracPart, rest2) =>
      if intPart = [] ∧ fracPart = [] then none
      else
        let expVal? : Option ℤ :=
          match rest2 with
          | [] => some 0
          | 'e' :: r =>
            (match r with
             | '+' :: r2 => if r2 ≠ [] ∧ r2.all isDigitCh then some (digitsVal r2 : ℤ) else none
             | '-' :: r2 => if r2 ≠ [] ∧ r2.all isDigitCh then some (-(digitsVal r2 : ℤ)) else none
             | _ => if r ≠ [] ∧ r.all isDigitCh then some (digitsVal r : ℤ) else none)
          | 'E' :: r =>
            (match r with
             | '+' :: r2 => if r2 ≠ [] ∧ r2.all isDigitCh then some (digitsVal r2 : ℤ) else none
             | '-' :: r2 => if r2 ≠ [] ∧ r2.all isDigitCh then some (-(digitsVal r2 : ℤ)) else none
             | _ => if r ≠ [] ∧ r.all isDigitCh then some (digitsVal r : ℤ) else none)
          | _ => none
        match expVal? with
        | none => none
        | some e =>
          let mantissa : ℚ :=
            (digitsVal intPart : ℚ) + (digitsVal fracPart : ℚ) / (10 : ℚ)^fracPart.length
          some (.finite (mantissa * (10 : ℚ)^e))

/-- The JavaScript Number() conversion on a string: trim, empty gives
zero, unsigned hexadecimal, octal and binary literals, and otherwise an
optionally signed decimal literal or Infinity.  none stands for NaN. -/
def jsStringToNumber (s : String) : Option JsNumber :=
  let cs := jsTrimList s.data
  match cs with
  | [] => some (.finite 0)
  | '+' :: r => decNumber? r
  | '-' :: r => (decNumber? r).map JsNumber.neg
  | '0' :: c :: r =>
    if c = 'x' ∨ c = 'X' then (baseDigitsVal? 16 r).map (fun n => .finite (n : ℚ))
    else if c = 'o' ∨ c = 'O' then (baseDigitsVal? 8 r).map (fun n => .finite (n : ℚ))
    else if c = 'b' ∨ c = 'B' then (baseDigitsVal? 2 r).map (fun n => .finite (n : ℚ))
    else decNumber? cs
  | _ => decNumber? cs

/-- Typed value produced by the validator: a raw string, a number, a
boolean, a comma-split string array, or a JSON document.  The JSON
payload type is abstract because JSON.parse belongs to the host runtime. -/
inductive JsValue (J : Type) : Type where
  | str (s : String) : JsValue J
  | num (n : JsNumber) : JsValue J
  | bool (b : Bool) : JsValue J
  | arr (items : List String) : JsValue J
  | json (j : J) : JsValue J
deriving DecidableEq, Repr

/-- Conversion failures of convertType, one per failing branch. -/
inductive ConvError : Type where
  | emptyNumber : ConvError
  | notANumber (value : String) : ConvError
  | emptyBoolean : ConvError
  | notABoolean (value : String) : ConvError
  | invalidJson : ConvError
  | unsupportedType (t : String) : ConvError
deriving DecidableEq, Repr

/-- Splitting on commas, as the JavaScript String.prototype.split. -/
def splitComma : List Char → List (List Char)
  | [] => [[]]
  | ',' :: rest => [] :: splitComma rest
  | c :: rest =>
    match splitComma rest with
    | [] => [[c]]
    | l :: ls => (c :: l) :: ls

/-- The current convertType of the source: trim the value, lower-case the
type name, and convert per type with the documented edge cases (special
numeric literals, the five-element truthy and falsy sets, empty array
input, comma splitting with trimming and dropping of empty items, and
JSON parsing through the host parser). -/
def convertType {J : Type} (jp : String → Option J) (value : String)
    (typ : String) : Except ConvError (JsValue J) :=
  let trimmed := jsTrim value
  let t := lowerS typ
  if t = "string" then .ok (.str value)
  else if t = "number" then
    if trimmed = "" then .error .emptyNumber
    else if lowerS trimmed = "infinity" then .ok (.num .infinity)
    else if lowerS trimmed = "-infinity" then .ok (.num .negInfinity)
    else if lowerS trimmed = "nan" then .ok (.num .nan)
    else
      match jsStringToNumber trimmed with
      | some n => .ok (.num n)
      | none => .error (.notANumber value)
  else if t = "boolean" then
    if trimmed = "" then .error .emptyBoolean
    else
      let lower := lowerS trimmed
      if lower = "true" ∨ lower = "1" ∨ lower = "yes" ∨ lower = "on" ∨
         lower = "enabled" then .ok (.bool true)
      else if lower = "false" ∨ lower = "0" ∨ lower = "no" ∨ lower = "off" ∨
         lower = "disabled" then .ok (.bool false)
      else .error (.notABoolean value)
  else if t = "array" then
    if trimmed = "" then .ok (.arr [])
    else
      .ok (.arr (((splitComma value.data).map
        (fun cs => (⟨jsTrimList cs⟩ : String))).filter (fun s => s ≠ "")))
  else if t = "json" then
    match jp value with
    | some j => .ok (.json j)
    | none => .error .invalidJson
  else .error (.unsupportedType typ)

/-- Per-variable schema entry: an optional declared type name and an
optional default, the default already being a final typed value. -/
structure VarSpec (J : Type) : Type where
  typ : Option String
  dflt : Option (JsValue J)

/-- Validation schema: required names and per-name variable entries. -/
structure Schema (J : Type) : Type where
  required : List String
  vars : List (String × VarSpec J)

/-- Violations recorded by validateAndConvert. -/
inductive ValError : Type where
  | requiredMissing (name : String) : ValError
  | conversionFailed (name value : String) (e : ConvError) : ValError
deriving DecidableEq, Repr

/-- Effective type name of a variable entry: the config type when it is a
non-empty string, else the string type, as the or-else idiom of the call. -/
def effType {J : Type} (cfg : VarSpec J) : String :=
  match cfg.typ with
  | some t => if t = "" then "string" else t
  | none => "string"

/-- The required-name check of the current validateAndConvert: a violation
when the name is absent from the mapping or its value is the empty string. -/
def requiredViolated (parsed : Env) (k : String) : Bool :=
  match lookupEnv parsed k with
  | none => true
  | some v => v = ""

/-- Typed result mapping of the validator. -/
abbrev JsEnv (J : Type) : Type := List (String × JsValue J)

/-- Lookup in the typed result mapping. -/
def lookupJs {J : Type} : JsEnv J → String → Option (JsValue J)
  | [], _ => none
  | (k, v) :: rest, key => if k = key then some v else lookupJs rest key

/-- JS object assignment on the typed result mapping. -/
def upsertJs {J : Type} : JsEnv J → String → JsValue J → JsEnv J
  | [], k, v => [(k, v)]
  | (k', v') :: rest, k, v =>
    if k' = k then (k, v) :: rest else (k', v') :: upsertJs rest k v

/-- Lookup of a variable entry in the schema. -/
def lookupVar {J : Type} : List (String × VarSpec J) → String → Option (VarSpec J)
  | [], _ => none
  | (k, v) :: rest, key => if k = key then some v else lookupVar rest key

/-- The required-variables loop of the current validateAndConvert: push
one violation per required name that is missing or empty. -/
def requiredErrors (parsed : Env) (req : List String) : List ValError :=
  req.foldl
    (fun acc k =>
      if requiredViolated parsed k then acc ++ [.requiredMissing k] else acc)
    []

/-- The schema-variables loop of the current validateAndConvert: per
entry, a missing or empty value takes the default when present and is
otherwise omitted; a present non-empty value is converted, a conversion
failure being recorded while the key stays out of the result. -/
def processVars {J : Type} (jp : String → Option J) (parsed : Env) :
    List (String × VarSpec J) → JsEnv J × List ValError → JsEnv J × List ValError
  | [], st => st
  | (k, cfg) :: rest, (res, errs) =>
    match lookupEnv parsed k with
    | none =>
      (match cfg.dflt with
       | some d => processVars jp parsed rest (upsertJs res k d, errs)
       | none => processVars jp parsed rest (res, errs))
    | some v =>
      if v = "" then
        (match cfg.dflt with
         | some d => processVars jp parsed rest (upsertJs res k d, errs)
         | none => processVars jp parsed rest (res, errs))
      else
        match convertType jp v (effType cfg) with
        | .ok jv => processVars jp parsed rest (upsertJs res k jv, errs)
        | .error e =>
          processVars jp parsed rest (res, errs ++ [.conversionFailed k v e])

/-- The pass-through loop of the current validateAndConvert: every input
key not named in the schema variables is copied through unchanged. -/
def passThrough {J : Type} (vars : List (String × VarSpec J)) :
    Env → JsEnv J → JsEnv J
  | [], res => res
  | (k, v) :: rest, res =>
    match lookupVar vars k with
    | some _ => passThrough vars rest res
    | none => passThrough vars rest (upsertJs res k (.str v))

/-- The current validateAndConvert of the source: record a violation per
missing-or-empty required name, process the schema variables recording
conversion failures, copy through the non-schema keys, and finally raise
a single aggregate error carrying every recorded violation when any
exists, else return the assembled mapping. -/
def validateAndConvert {J : Type} (jp : String → Option J) (parsed : Env)
    (schema : Schema J) : Except (List ValError) (JsEnv J) :=
  let errs1 := requiredErrors parsed schema.required
  let st := processVars jp parsed schema.vars ([], [])
  let res := passThrough schema.vars parsed st.1
  match errs1 ++ st.2 with
  | [] => .ok res
  | es => .error es

end VectroEnv

namespace VectroEnv

/-- The legacy convertType kept in the repository: case-sensitive type
names, direct Number() conversion without the special literals or the
empty-string guard, three-element truthy and falsy sets without trimming,
comma splitting without dropping empty items, and no JSON support. -/
def legacyConvertType {J : Type} (value : String) (typ : String) :
    Except ConvError (JsValue J) :=
  if typ = "string" then .ok (.str value)
  else if typ = "number" then
    match jsStringToNumber value with
    | some n => .ok (.num n)
    | none => .error (.notANumber value)
  else if typ = "boolean" then
    let lower := lowerS value
    if lower = "true" ∨ lower = "1" ∨ lower = "yes" then .ok (.bool true)
    else if lower = "false" ∨ lower = "0" ∨ lower = "no" then .ok (.bool false)
    else .error (.notABoolean value)
  else if typ = "array" then
    .ok (.arr ((splitComma value.data).map (fun cs => (⟨jsTrimList cs⟩ : String))))
  else .error (.unsupportedType typ)

/-- The required-name check of the legacy validateAndConvert: a violation
only when the name is absent from the mapping. -/
def legacyRequiredViolated (parsed : Env) (k : String) : Bool :=
  match lookupEnv parsed k with
  | none => true
  | some _ => false

/-- The required-variables loop of the legacy validateAndConvert. -/
def legacyRequiredErrors (parsed : Env) (req : List String) : List ValError :=
  req.foldl
    (fun acc k =>
      if legacyRequiredViolated parsed k then acc ++ [.requiredMissing k] else acc)
    []

/-- The schema-variables loop of the legacy validateAndConvert: only an
absent value takes the default; a present value, the empty string
included, is converted. -/
def legacyProcessVars {J : Type} (parsed : Env) :
    List (String × VarSpec J) → JsEnv J × List ValError → JsEnv J × List ValError
  | [], st => st
  | (k, cfg) :: rest, (res, errs) =>
    match lookupEnv parsed k with
    | none =>
      (match cfg.dflt with
       | some d => legacyProcessVars parsed rest (upsertJs res k d, errs)
       | none => legacyProcessVars parsed rest (res, errs))
    | some v =>
      match legacyConvertType (J := J) v (effType cfg) with
      | .ok jv => legacyProcessVars parsed rest (upsertJs res k jv, errs)
      | .error e =>
        legacyProcessVars parsed rest (res, errs ++ [.conversionFailed k v e])

/-- The legacy validateAndConvert kept in the repository. -/
def legacyValidateAndConvert {J : Type} (parsed : Env) (schema : Schema J) :
    Except (List ValError) (JsEnv J) :=
  let errs1 := legacyRequiredErrors parsed schema.required
  let st := legacyProcessVars (J := J) parsed schema.vars ([], [])
  let res := passThrough schema.vars parsed st.1
  match errs1 ++ st.2 with
  | [] => .ok res
  | es => .error es

/-- A host JSON parser that accepts nothing, for concrete instances. -/
def jsonNone : String → Option Unit := fun _ => none

/-- The quote handling of parse as a String function. -/
def parseValue (v : String) : String := ⟨parseValueChars v.data⟩

/-- The trigger condition of quote stripping, exactly as the source tests
it: the value starts and ends with a double quote, or starts and ends
with a single quote. -/
def quoteTriggered (v : List Char) : Bool :=
  (v.head? == some '"' && v.getLast? == some '"') ||
  (v.head? == some '\'' && v.getLast? == some '\'')

/-- Distinct three-digit variable names for the reference chains. -/
def varName (n : Nat) : String :=
  "V" ++ ⟨[Char.ofNat (48 + n / 100), Char.ofNat (48 + (n / 10) % 10),
           Char.ofNat (48 + n % 10)]⟩

/-- A mapping whose entry zero references entry one and so on, the last
entry holding a plain value: expanding a reference to entry zero walks n
nested references, one recursion level per nested reference. -/
def nestedChainEnv (n : Nat) : Env :=
  (List.range (n + 1)).map (fun i =>
    (varName i, if i = n then "end" else "$\x7b" ++ varName (i + 1) ++ "\x7d"))

/-- Whether an expansion outcome is a depth failure, possibly wrapped by
the per-variable propagation contexts. -/
def isDepthExceeded (r : Except ExpandError String) : Bool :=
  match r with
  | .error e => match e.root with | .depthExceeded => true | _ => false
  | .ok _ => false

/-- The violations the specification says one validate call records: one
per required name that is absent or empty, then one per schema variable
whose present non-empty value fails its type conversion. -/
def claimRequiredViolations (parsed : Env) (req : List String) : List ValError :=
  req.filterMap (fun k =>
    if requiredViolated parsed k then some (.requiredMissing k) else none)

/-- The conversion-failure violations of one validate call, in schema
variable order. -/
def claimConvViolations {J : Type} (jp : String → Option J) (parsed : Env)
    (vars : List (String × VarSpec J)) : List ValError :=
  vars.filterMap (fun kc =>
    match lookupEnv parsed kc.1 with
    | none => none
    | some v =>
      if v = "" then none
      else
        match convertType jp v (effType kc.2) with
        | .ok _ => none
        | .error e => some (.conversionFailed kc.1 v e))

/-- Every violation of one validate call, required first. -/
def claimViolations {J : Type} (jp : String → Option J) (parsed : Env)
    (schema : Schema J) : List ValError :=
  claimRequiredViolations parsed schema.required ++
    claimConvViolations jp parsed schema.vars

end VectroEnv

namespace VectroEnv

set_option maxRecDepth 1000000

lemma tokenizeF_nil (f : Nat) : tokenizeF f [] = [] := by
  cases f <;> rfl

lemma takeToBrace_closed (nm : List Char) (h : ∀ c ∈ nm, c ≠ '\x7d') :
    takeToBrace (nm ++ ['\x7d']) = some (nm, []) := by
  induction nm with
  | nil => rfl
  | cons c r ih =>
    have hc : c ≠ '\x7d' := h c (by simp)
    have ih2 := ih (fun x hx => h x (by simp [hx]))
    simp [takeToBrace, hc, ih2]

lemma tokenizeF_braced (f : Nat) (nm : List Char) (h0 : nm ≠ [])
    (h : ∀ c ∈ nm, c ≠ '\x7d') :
    tokenizeF (Nat.succ f) ('$' :: '\x7b' :: (nm ++ ['\x7d'])) = [Tok.ref ⟨nm⟩] := by
  simp [tokenizeF, takeToBrace_closed nm h, h0, tokenizeF_nil]

lemma data_braced (name : String) :
    ("$\x7b" ++ name ++ "\x7d").data = '$' :: '\x7b' :: (name.data ++ ['\x7d']) := by
  have h1 : ("$\x7b" ++ name ++ "\x7d").data =
      ("$\x7b".data ++ name.data) ++ "\x7d".data := rfl
  rw [h1]
  simp

lemma tokenize_braced (name : String) (h0 : name ≠ "")
    (h : ∀ c ∈ name.data, c ≠ '\x7d') :
    tokenize ('$' :: '\x7b' :: (name.data ++ ['\x7d'])) = [Tok.ref name] := by
  have hd : name.data ≠ [] := by
    intro hnil
    apply h0
    cases name with
    | mk d => simp at hnil; simp [hnil]
  have : tokenizeF (Nat.succ (('\x7b' :: (name.data ++ ['\x7d'])).length))
      ('$' :: '\x7b' :: (name.data ++ ['\x7d'])) = [Tok.ref ⟨name.data⟩] :=
    tokenizeF_braced _ name.data hd h
  simpa [tokenize] using this

/-- C1 (amended).  Whenever expansion is about to substitute a name (here
a braced reference) already present in the visiting set, it fails with a
CircularReferenceError carrying the full chain from the first visited
name to the repeated one, and such a failure propagates out of parse, as
when the external lookup holds mutually referential values.  However the
two-line content of the claim parses without error to the mapping with
both keys empty: each value is fully expanded before being stored, so
the first line resolves its forward reference to the empty string and
the second line substitutes that stored empty value, no cycle forming. -/
theorem c1_circular_detection :
    (∀ (ext : Lookup) (parsed : Env) (vis : List String) (depth : Nat)
        (name : String),
        name ∈ vis → name ≠ "" → (∀ c ∈ name.data, c ≠ '\x7d') → depth ≤ 100 →
        expandVariables ext ("$\x7b" ++ name ++ "\x7d") parsed vis depth =
          .error (.circular (vis ++ [name])))
    ∧ parse extEmpty "A=$\x7bB\x7d\nB=$\x7bA\x7d" = .ok [("A", ""), ("B", "")]
    ∧ parse
        (fun k => if k = "A" then some "$B" else if k = "B" then some "$A" else none)
        "A=$\x7bB\x7d" =
        .error (.wrapped "B" (.wrapped "A" (.circular ["B", "A", "B"]))) := by
  refine ⟨?_, by decide, by decide⟩
  intro ext parsed vis depth name hmem h0 hbr hd
  obtain ⟨f, hf⟩ : ∃ f, 101 - depth = Nat.succ f := ⟨100 - depth, by omega⟩
  unfold expandVariables
  rw [hf]
  simp only [expandFuel, data_braced, tokenize_braced name h0 hbr]
  simp [goToks, hmem, Except.map]

/-- C1 counterexample.  Parsing the two-line content of the claim does not
raise: it succeeds with both keys bound to the empty string, because the
forward reference of the first line resolves to the empty string before
any cycle can form. -/
theorem c1_counterexample :
    parse extEmpty "A=$\x7bB\x7d\nB=$\x7bA\x7d" = .ok [("A", ""), ("B", "")] ∧
      ¬ ∃ e, parse extEmpty "A=$\x7bB\x7d\nB=$\x7bA\x7d" = .error e := by
  constructor
  · decide
  · intro ⟨e, he⟩
    rw [show parse extEmpty "A=$\x7bB\x7d\nB=$\x7bA\x7d" =
      .ok [("A", ""), ("B", "")] from by decide] at he
    cases he

/-- Witness for C1 at a concrete instance: a reference to a name already
in the visiting set fails with the chain recorded in order. -/
theorem c1_circular_detection_witness :
    expandVariables extEmpty "$\x7bA\x7d" [] ["Z", "A"] 0 =
      .error (.circular ["Z", "A", "A"]) :=
  c1_circular_detection.1 extEmpty [] ["Z", "A"] 0 "A" (by decide) (by decide)
    (by decide) (by decide)

/-- C2.  The recursion depth of expansion is bounded by 100: the top-level
expansion runs at depth zero and each nested reference (a reference
contained in the replacement value of the previous one) raises the depth
by one, the entry check rejecting depth above 100.  Expanding a value
referencing entry zero of a 101-step nested chain (101 nested references
beyond the value itself) fails with a DepthExceededError at the root of
the propagated error, while the 100-step chain succeeds. -/
theorem c2_depth_limit :
    isDepthExceeded
      (expandVariables extEmpty "$\x7bV000\x7d" (nestedChainEnv 101) [] 0) = true
    ∧ expandVariables extEmpty "$\x7bV000\x7d" (nestedChainEnv 100) [] 0 =
        .ok "end" := by
  constructor
  · decide
  · decide

/-- C3 counterexample.  A value consisting of the single double-quote
character is not left verbatim: the missing length guard lets the strip
of first and last character turn it into the empty string. -/
theorem c3_counterexample :
    parse extEmpty "A=\"" = .ok [("A", "")] ∧ ("" : String) ≠ "\"" := by
  constructor
  · decide
  · decide

/-- C3 (amended).  Quote stripping and the unescape chain run exactly when
the value starts and ends with a double quote or starts and ends with a
single quote, with no minimum length: a value that is one quote character
long satisfies the test through the same character and becomes empty.
Every other value, partially quoted values included, stays verbatim
before expansion. -/
theorem c3_quote_stripping :
    (∀ v : String, quoteTriggered v.data = true →
        parseValue v = ⟨unescapeJs ((v.data.drop 1).dropLast)⟩)
    ∧ (∀ v : String, quoteTriggered v.data = false → parseValue v = v)
    ∧ parse extEmpty "A=\"" = .ok [("A", "")]
    ∧ parse extEmpty "A=a\"b\"c" = .ok [("A", "a\"b\"c")]
    ∧ parse extEmpty "A=\"x\\ty\"" = .ok [("A", "x\ty")] := by
  refine ⟨?_, ?_, by decide, by decide, by decide⟩
  · intro v h
    have hc : (v.data.head? = some '"' ∧ v.data.getLast? = some '"') ∨
        (v.data.head? = some '\'' ∧ v.data.getLast? = some '\'') := by
      simpa [quoteTriggered] using h
    simp [parseValue, parseValueChars, hc]
  · intro v h
    have hc : ¬ ((v.data.head? = some '"' ∧ v.data.getLast? = some '"') ∨
        (v.data.head? = some '\'' ∧ v.data.getLast? = some '\'')) := by
      simpa [quoteTriggered] using h
    simp only [parseValue, parseValueChars, if_neg hc]

/-- Witness for C3 at a concrete quoted value. -/
theorem c3_quote_stripping_witness :
    parseValue "\"q\"" = ⟨unescapeJs ((("\"q\"" : String).data.drop 1).dropLast)⟩ :=
  c3_quote_stripping.1 "\"q\"" (by decide)

/-- C8.  Processing one line either leaves the mapping untouched (skipped
line) or assigns exactly one key; expansion itself returns only a string
and receives the mapping built from the earlier lines, so a reference is
resolved from earlier assignments or the external lookup only.  The
forward-ordered file of the claim resolves, while in the reversed file
the reference to a later line falls through to the empty string. -/
theorem c8_frame_and_order :
    (∀ (ext : Lookup) (line : List Char) (acc r : Env),
        processLine ext line acc = .ok r →
        r = acc ∨ ∃ k v, r = upsertEnv acc k v)
    ∧ parse extEmpty "A=1\nB=$\x7bA\x7d" = .ok [("A", "1"), ("B", "1")]
    ∧ parse extEmpty "B=$\x7bA\x7d\nA=1" = .ok [("B", ""), ("A", "1")] := by
  refine ⟨?_, by decide, by decide⟩
  intro ext line acc r h
  unfold processLine at h
  split at h
  · left; cases h; rfl
  · dsimp only at h
    split at h
    · left; cases h; rfl
    · split at h
      · cases h
      · right
        cases h
        exact ⟨_, _, rfl⟩

/-- Witness for C8: the frame property at a concrete line. -/
theorem c8_frame_and_order_witness :
    ([("A", "1")] : Env) = ([] : Env) ∨
      ∃ k v, ([("A", "1")] : Env) = upsertEnv [] k v :=
  c8_frame_and_order.1 extEmpty ("A=1").data [] [("A", "1")] (by decide)

/-- C9.  The current required-name check records a violation exactly when
the name is absent or its value is the empty string; the legacy check
records one exactly when the name is absent; the two checks disagree
exactly on mappings where the required name is present with the empty
string as value, and on such a mapping the two whole validators differ:
the current one raises while the legacy one returns the mapping. -/
theorem c9_two_validators :
    (∀ (parsed : Env) (k : String),
        requiredViolated parsed k = true ↔
          (lookupEnv parsed k = none ∨ lookupEnv parsed k = some ""))
    ∧ (∀ (parsed : Env) (k : String),
        legacyRequiredViolated parsed k = true ↔ lookupEnv parsed k = none)
    ∧ (∀ (parsed : Env) (k : String),
        ¬ (requiredViolated parsed k = legacyRequiredViolated parsed k) ↔
          lookupEnv parsed k = some "")
    ∧ validateAndConvert jsonNone [("X", "")] (Schema.mk ["X"] []) =
        .error [.requiredMissing "X"]
    ∧ legacyValidateAndConvert (J := Unit) [("X", "")] (Schema.mk ["X"] []) =
        .ok [("X", .str "")] := by
  refine ⟨?_, ?_, ?_, by decide, by decide⟩
  · intro parsed k
    unfold requiredViolated
    cases h : lookupEnv parsed k with
    | none => simp
    | some v => by_cases hv : v = "" <;> simp [hv]
  · intro parsed k
    unfold legacyRequiredViolated
    cases h : lookupEnv parsed k <;> simp
  · intro parsed k
    unfold requiredViolated legacyRequiredViolated
    cases h : lookupEnv parsed k with
    | none => simp
    | some v => by_cases hv : v = "" <;> simp [hv]

/-- Witness for C9 at a concrete mapping: the current required check fires
on a present-but-empty value. -/
theorem c9_two_validators_witness :
    requiredViolated [("X", "")] "X" = true ↔
      (lookupEnv [("X", "")] "X" = none ∨ lookupEnv [("X", "")] "X" = some "") :=
  c9_two_validators.1 [("X", "")] "X"

lemma expandVariables_single_ref (ext : Lookup) (parsed : Env) (name : String)
    (h0 : name ≠ "") (hbr : ∀ c ∈ name.data, c ≠ '\x7d') :
    expandVariables ext ("$\x7b" ++ name ++ "\x7d") parsed [] 0 =
      (goToks parsed ext (fun v' vis' => expandFuel parsed ext 100 v' vis') []
        [Tok.ref name]).map (fun cs => (⟨cs⟩ : String)) := by
  unfold expandVariables
  have h101 : (101 : Nat) - 0 = Nat.succ 100 := rfl
  rw [h101]
  simp only [expandFuel, data_braced, tokenize_braced name h0 hbr]

/-- C7.  Each reference is resolved by looking the name up in the parsed
mapping; when the name is absent there or bound to the empty string the
external lookup is consulted; when the name is absent there too the
reference becomes the empty string.  Stated for a value that is one
braced reference whose resolved replacement needs no further expansion. -/
theorem c7_resolution_order :
    ∀ (ext : Lookup) (parsed : Env) (name : String),
      name ≠ "" → (∀ c ∈ name.data, c ≠ '\x7d') →
      (∀ v : String, lookupEnv parsed name = some v → v ≠ "" → '$' ∉ v.data →
          expandVariables ext ("$\x7b" ++ name ++ "\x7d") parsed [] 0 = .ok v)
      ∧ ((lookupEnv parsed name = none ∨ lookupEnv parsed name = some "") →
          (∀ w : String, ext name = some w → '$' ∉ w.data →
              expandVariables ext ("$\x7b" ++ name ++ "\x7d") parsed [] 0 = .ok w)
          ∧ (ext name = none →
              expandVariables ext ("$\x7b" ++ name ++ "\x7d") parsed [] 0 = .ok "")) := by
  intro ext parsed name h0 hbr
  constructor
  · intro v hv hne hd
    rw [expandVariables_single_ref ext parsed name h0 hbr]
    simp [goToks, jsOr, hv, hne, hd, Except.map]
  · intro hfall
    constructor
    · intro w hw hd
      rw [expandVariables_single_ref ext parsed name h0 hbr]
      rcases hfall with hn | he
      · by_cases hwe : w = ""
        · subst hwe
          simp [goToks, jsOr, hn, hw, Except.map]
        · simp [goToks, jsOr, hn, hw, hd, Except.map]
      · by_cases hwe : w = ""
        · subst hwe
          simp [goToks, jsOr, he, hw, Except.map]
        · simp [goToks, jsOr, he, hw, hd, Except.map]
    · intro hn
      rw [expandVariables_single_ref ext parsed name h0 hbr]
      rcases hfall with he | he <;> simp [goToks, jsOr, he, hn, Except.map]

/-- Witness for C7: a present non-empty binding resolves from the parsed
mapping even when the external lookup disagrees. -/
theorem c7_resolution_order_witness :
    expandVariables (fun _ => some "zzz") "$\x7bN\x7d" [("N", "x")] [] 0 =
      .ok "x" :=
  (c7_resolution_order (fun _ => some "zzz") [("N", "x")] "N" (by decide)
    (by decide)).1 "x" (by decide) (by decide) (by decide)

lemma foldl_pushIf (p : String → Bool) (f : String → ValError) :
    ∀ (req : List String) (acc : List ValError),
      req.foldl (fun a k => if p k then a ++ [f k] else a) acc =
        acc ++ req.filterMap (fun k => if p k then some (f k) else none) := by
  intro req
  induction req with
  | nil => intro acc; simp
  | cons k r ih =>
    intro acc
    by_cases hp : p k <;> simp [List.foldl_cons, hp, ih]

lemma requiredErrors_eq (parsed : Env) (req : List String) :
    requiredErrors parsed req = claimRequiredViolations parsed req := by
  unfold requiredErrors claimRequiredViolations
  rw [foldl_pushIf]
  simp

lemma processVars_errs {J : Type} (jp : String → Option J) (parsed : Env) :
    ∀ (vars : List (String × VarSpec J)) (res : JsEnv J) (errs : List ValError),
      (processVars jp parsed vars (res, errs)).2 =
        errs ++ claimConvViolations jp parsed vars := by
  intro vars
  induction vars with
  | nil => intro res errs; simp [processVars, claimConvViolations]
  | cons kc rest ih =>
    intro res errs
    obtain ⟨k, cfg⟩ := kc
    cases hle : lookupEnv parsed k with
    | none =>
      cases hd : cfg.dflt <;>
        simp [processVars, hle, hd, ih, claimConvViolations]
    | some v =>
      by_cases hv : v = ""
      · cases hd : cfg.dflt <;>
          simp [processVars, hle, hd, hv, ih, claimConvViolations]
      · cases hc : convertType jp v (effType cfg) with
        | ok jv => simp [processVars, hle, hv, hc, ih, claimConvViolations]
        | error e => simp [processVars, hle, hv, hc, ih, claimConvViolations]

lemma validateAndConvert_eq {J : Type} (jp : String → Option J) (parsed : Env)
    (schema : Schema J) :
    validateAndConvert jp parsed schema =
      match claimViolations jp parsed schema with
      | [] =>
        .ok (passThrough schema.vars parsed
          (processVars jp parsed schema.vars ([], [])).1)
      | es => .error es := by
  simp only [validateAndConvert, claimViolations, requiredErrors_eq,
    processVars_errs, List.nil_append]

/-- C4.  The validator is fail-slow: an error outcome carries exactly the
violation list made of one entry per required name that is absent or
empty followed by one entry per schema variable whose present non-empty
value fails conversion; any non-empty violation list forces the error
outcome carrying all of it, and only an empty violation list lets the
call succeed.  The instance of the claim raises the aggregate error
holding the required-missing violation for X. -/
theorem c4_fail_slow :
    (∀ (J : Type) (jp : String → Option J) (parsed : Env) (schema : Schema J)
        (errs : List ValError),
        validateAndConvert jp parsed schema = .error errs →
        errs = claimViolations jp parsed schema ∧ errs ≠ [])
    ∧ (∀ (J : Type) (jp : String → Option J) (parsed : Env) (schema : Schema J),
        claimViolations jp parsed schema ≠ [] →
        validateAndConvert jp parsed schema =
          .error (claimViolations jp parsed schema))
    ∧ (∀ (J : Type) (jp : String → Option J) (parsed : Env) (schema : Schema J),
        claimViolations jp parsed schema = [] →
        ∃ r, validateAndConvert jp parsed schema = .ok r)
    ∧ validateAndConvert jsonNone [] (Schema.mk ["X"] []) =
        .error [.requiredMissing "X"] := by
  refine ⟨?_, ?_, ?_, by decide⟩
  · intro J jp parsed schema errs h
    rw [validateAndConvert_eq] at h
    cases hcv : claimViolations jp parsed schema with
    | nil => rw [hcv] at h; cases h
    | cons e es =>
      rw [hcv] at h
      cases h
      exact ⟨rfl, by simp⟩
  · intro J jp parsed schema h
    rw [validateAndConvert_eq]
    cases hcv : claimViolations jp parsed schema with
    | nil => exact absurd hcv h
    | cons e es => rfl
  · intro J jp parsed schema h
    rw [validateAndConvert_eq, h]
    exact ⟨_, rfl⟩

/-- Witness for C4: the non-empty violation list of the instance forces
the aggregate error carrying the whole list. -/
theorem c4_fail_slow_witness :
    validateAndConvert jsonNone [("A", "x")]
        (Schema.mk ["X"] [("A", VarSpec.mk (some "number") none)]) =
      .error (claimViolations jsonNone [("A", "x")]
        (Schema.mk ["X"] [("A", VarSpec.mk (some "number") none)])) :=
  c4_fail_slow.2.1 Unit jsonNone [("A", "x")]
    (Schema.mk ["X"] [("A", VarSpec.mk (some "number") none)]) (by decide)

lemma lookupJs_upsert {J : Type} :
    ∀ (res : JsEnv J) (k k' : String) (v : JsValue J),
      lookupJs (upsertJs res k v) k' =
        if k = k' then some v else lookupJs res k' := by
  intro res k k' v
  induction res with
  | nil => simp [upsertJs, lookupJs]
  | cons kv rest ih =>
    obtain ⟨k1, v1⟩ := kv
    by_cases h1 : k1 = k
    · subst h1
      simp only [upsertJs, if_pos rfl, lookupJs]
      by_cases h2 : k1 = k' <;> simp [h2]
    · simp only [upsertJs, if_neg h1, lookupJs]
      by_cases h2 : k1 = k'
      · subst h2
        have h3 : ¬ k = k1 := fun hh => h1 hh.symm
        simp [h3]
      · simp [h2, ih]

lemma lookupVar_none_iff {J : Type} :
    ∀ (vars : List (String × VarSpec J)) (k : String),
      lookupVar vars k = none ↔ k ∉ vars.map Prod.fst := by
  intro vars k
  induction vars with
  | nil => simp [lookupVar]
  | cons kc rest ih =>
    obtain ⟨k1, c1⟩ := kc
    by_cases h1 : k1 = k
    · subst h1; simp [lookupVar]
    · have h2 : ¬ k = k1 := fun hh => h1 hh.symm
      simp [lookupVar, h1, h2, ih]

lemma lookupEnv_none_iff :
    ∀ (parsed : Env) (k : String),
      lookupEnv parsed k = none ↔ k ∉ parsed.map Prod.fst := by
  intro parsed k
  induction parsed with
  | nil => simp [lookupEnv]
  | cons kv rest ih =>
    obtain ⟨k1, v1⟩ := kv
    by_cases h1 : k1 = k
    · subst h1; simp [lookupEnv]
    · have h2 : ¬ k = k1 := fun hh => h1 hh.symm
      simp [lookupEnv, h1, h2, ih]

lemma lookupVar_mem {J : Type} :
    ∀ (vars : List (String × VarSpec J)) (k : String) (cfg : VarSpec J),
      lookupVar vars k = some cfg → (k, cfg) ∈ vars := by
  intro vars
  induction vars with
  | nil => intro k cfg h; cases h
  | cons kc rest ih =>
    intro k cfg h
    obtain ⟨k1, c1⟩ := kc
    by_cases h1 : k1 = k
    · subst h1
      rw [lookupVar, if_pos rfl] at h
      cases h
      exact List.mem_cons_self _ _
    · rw [lookupVar, if_neg h1] at h
      exact List.mem_cons_of_mem _ (ih k cfg h)

lemma processVars_frame {J : Type} (jp : String → Option J) (parsed : Env) :
    ∀ (vars : List (String × VarSpec J)) (res : JsEnv J) (errs : List ValError)
      (k : String), k ∉ vars.map Prod.fst →
      lookupJs (processVars jp parsed vars (res, errs)).1 k = lookupJs res k := by
  intro vars
  induction vars with
  | nil => intro res errs k _; simp [processVars]
  | cons kc rest ih =>
    intro res errs k h
    obtain ⟨k1, cfg⟩ := kc
    have hk1 : ¬ k1 = k := by
      intro hh; exact h (by simp [hh])
    have hrest : k ∉ rest.map Prod.fst := fun hh => h (by simp [hh])
    have hup : ∀ x, lookupJs (upsertJs res k1 x) k = lookupJs res k := by
      intro x; rw [lookupJs_upsert]; simp [hk1]
    cases hle : lookupEnv parsed k1 with
    | none =>
      cases hd : cfg.dflt <;> simp [processVars, hle, hd, ih, hrest, hup]
    | some v =>
      by_cases hv : v = ""
      · cases hd : cfg.dflt <;> simp [processVars, hle, hd, hv, ih, hrest, hup]
      · cases hc : convertType jp v (effType cfg) <;>
          simp [processVars, hle, hv, hc, ih, hrest, hup]

lemma processVars_lookup {J : Type} (jp : String → Option J) (parsed : Env) :
    ∀ (vars : List (String × VarSpec J)) (res : JsEnv J) (errs : List ValError)
      (k : String) (cfg : VarSpec J),
      (vars.map Prod.fst).Nodup →
      lookupVar vars k = some cfg →
      lookupJs (processVars jp parsed vars (res, errs)).1 k =
        (match lookupEnv parsed k with
         | none =>
           (match cfg.dflt with
            | some d => some d
            | none => lookupJs res k)
         | some v =>
           if v = "" then
             (match cfg.dflt with
              | some d => some d
              | none => lookupJs res k)
           else
             (match convertType jp v (effType cfg) with
              | .ok jv => some jv
              | .error _ => lookupJs res k)) := by
  intro vars
  induction vars with
  | nil => intro res errs k cfg _ h; cases h
  | cons kc rest ih =>
    intro res errs k cfg hnd h
    obtain ⟨k1, cfg1⟩ := kc
    rw [List.map_cons, List.nodup_cons] at hnd
    have hnd1 : k1 ∉ rest.map Prod.fst := hnd.1
    have hnd2 : (rest.map Prod.fst).Nodup := hnd.2
    by_cases h1 : k1 = k
    · subst h1
      rw [lookupVar, if_pos rfl] at h
      cases h
      have hframe := processVars_frame jp parsed rest
      cases hle : lookupEnv parsed k1 with
      | none =>
        cases hd : cfg.dflt <;>
          simp [processVars, hle, hd, hframe, hnd1, lookupJs_upsert]
      | some v =>
        by_cases hv : v = ""
        · cases hd : cfg.dflt <;>
            simp [processVars, hle, hd, hv, hframe, hnd1, lookupJs_upsert]
        · cases hc : convertType jp v (effType cfg) <;>
            simp [processVars, hle, hv, hc, hframe, hnd1, lookupJs_upsert]
    · rw [lookupVar, if_neg h1] at h
      have hup : ∀ x, lookupJs (upsertJs res k1 x) k = lookupJs res k := by
        intro x; rw [lookupJs_upsert]; simp [h1]
      cases hle1 : lookupEnv parsed k1 with
      | none =>
        cases hd : cfg1.dflt <;>
          simp [processVars, hle1, hd, ih _ _ _ _ hnd2 h, hup]
      | some v =>
        by_cases hv : v = ""
        · cases hd : cfg1.dflt <;>
            simp [processVars, hle1, hd, hv, ih _ _ _ _ hnd2 h, hup]
        · cases hc : convertType jp v (effType cfg1) <;>
            simp [processVars, hle1, hv, hc, ih _ _ _ _ hnd2 h, hup]

lemma passThrough_frame {J : Type} (vars : List (String × VarSpec J)) :
    ∀ (parsed : Env) (res : JsEnv J) (k : String),
      k ∉ parsed.map Prod.fst →
      lookupJs (passThrough vars parsed res) k = lookupJs res k := by
  intro parsed
  induction parsed with
  | nil => intro res k _; simp [passThrough]
  | cons kv rest ih =>
    intro res k h
    obtain ⟨k1, v1⟩ := kv
    have hk1 : ¬ k1 = k := fun hh => h (by simp [hh])
    have hrest : k ∉ rest.map Prod.fst := fun hh => h (by simp [hh])
    cases hlv : lookupVar vars k1 with
    | some cfg => simp [passThrough, hlv, ih, hrest]
    | none =>
      have hup : lookupJs (upsertJs res k1 (.str v1)) k = lookupJs res k := by
        rw [lookupJs_upsert]; simp [hk1]
      simp [passThrough, hlv, ih, hrest, hup]

lemma passThrough_skip {J : Type} (vars : List (String × VarSpec J)) :
    ∀ (parsed : Env) (res : JsEnv J) (k : String),
      (lookupVar vars k).isSome →
      lookupJs (passThrough vars parsed res) k = lookupJs res k := by
  intro parsed
  induction parsed with
  | nil => intro res k _; simp [passThrough]
  | cons kv rest ih =>
    intro res k h
    obtain ⟨k1, v1⟩ := kv
    cases hlv : lookupVar vars k1 with
    | some cfg => simp [passThrough, hlv, ih, h]
    | none =>
      have hk1 : ¬ k1 = k := by
        intro hh
        subst hh
        rw [hlv] at h
        cases h
      have hup : lookupJs (upsertJs res k1 (.str v1)) k = lookupJs res k := by
        rw [lookupJs_upsert]; simp [hk1]
      simp [passThrough, hlv, ih, h, hup]

lemma passThrough_hit {J : Type} (vars : List (String × VarSpec J)) :
    ∀ (parsed : Env) (res : JsEnv J) (k : String) (v : String),
      (parsed.map Prod.fst).Nodup →
      lookupEnv parsed k = some v →
      lookupVar vars k = none →
      lookupJs (passThrough vars parsed res) k = some (.str v) := by
  intro parsed
  induction parsed with
  | nil => intro res k v _ h _; cases h
  | cons kv rest ih =>
    intro res k v hnd hle hlv
    obtain ⟨k1, v1⟩ := kv
    rw [List.map_cons, List.nodup_cons] at hnd
    have hnd1 : k1 ∉ rest.map Prod.fst := hnd.1
    have hnd2 : (rest.map Prod.fst).Nodup := hnd.2
    by_cases h1 : k1 = k
    · subst h1
      rw [lookupEnv, if_pos rfl] at hle
      cases hle
      rw [passThrough, hlv]
      have : lookupJs (upsertJs res k1 (JsValue.str v)) k1 = some (.str v) := by
        rw [lookupJs_upsert]; simp
      rw [passThrough_frame vars rest _ k1 hnd1]
      exact this
    · rw [lookupEnv, if_neg h1] at hle
      cases hlv1 : lookupVar vars k1 with
      | some cfg => simp [passThrough, hlv1, ih _ _ _ hnd2 hle hlv]
      | none => simp [passThrough, hlv1, ih _ _ _ hnd2 hle hlv]

/-- C5.  On success the validator output holds exactly the schema-variable
names that received a converted value (present, non-empty, successfully
converted) or a default, plus every input key not named in the schema
variables, the latter passed through with their input string values; a
schema name that is missing or empty and has no default is omitted.  The
instance of the claim applies the default because the value is empty. -/
theorem c5_output_shape :
    (∀ (J : Type) (jp : String → Option J) (parsed : Env) (schema : Schema J)
        (r : JsEnv J),
        (parsed.map Prod.fst).Nodup →
        (schema.vars.map Prod.fst).Nodup →
        validateAndConvert jp parsed schema = .ok r →
        (∀ k : String,
          (lookupJs r k).isSome ↔
            ((∃ cfg, lookupVar schema.vars k = some cfg ∧
                ((∃ v, lookupEnv parsed k = some v ∧ v ≠ "") ∨ cfg.dflt.isSome))
             ∨ ((lookupEnv parsed k).isSome ∧ lookupVar schema.vars k = none)))
        ∧ (∀ (k v : String), lookupEnv parsed k = some v →
            lookupVar schema.vars k = none → lookupJs r k = some (.str v)))
    ∧ validateAndConvert jsonNone [("PORT", "")]
        (Schema.mk [] [("PORT", VarSpec.mk (some "number")
          (some (.num (.finite 3000))))]) =
        .ok [("PORT", .num (.finite 3000))] := by
  refine ⟨?_, by decide⟩
  intro J jp parsed schema r hnp hnv hok
  rw [validateAndConvert_eq] at hok
  cases hcv : claimViolations jp parsed schema with
  | cons e es => rw [hcv] at hok; cases hok
  | nil =>
    rw [hcv] at hok
    cases hok
    constructor
    · intro k
      cases hlv : lookupVar schema.vars k with
      | none =>
        cases hle : lookupEnv parsed k with
        | none =>
          rw [passThrough_frame _ _ _ _ ((lookupEnv_none_iff parsed k).1 hle),
            processVars_frame _ _ _ _ _ _ ((lookupVar_none_iff schema.vars k).1 hlv)]
          simp [lookupJs, hlv]
        | some v =>
          rw [passThrough_hit _ _ _ _ _ hnp hle hlv]
          simp [hle, hlv]
      | some cfg =>
        rw [passThrough_skip _ _ _ _ (by rw [hlv]; rfl),
          processVars_lookup jp parsed _ _ _ _ _ hnv hlv]
        cases hle : lookupEnv parsed k with
        | none =>
          cases hd : cfg.dflt with
          | none => simp [lookupJs, hlv, hle, hd]
          | some d => simp [hlv, hle, hd]
        | some v =>
          by_cases hv : v = ""
          · cases hd : cfg.dflt with
            | none => simp [lookupJs, hlv, hle, hd, hv]
            | some d => simp [hlv, hle, hd, hv]
          · cases hc : convertType jp v (effType cfg) with
            | ok jv => simp [hlv, hle, hv, hc]
            | error err =>
              exfalso
              have hmem : ValError.conversionFailed k v err ∈
                  claimConvViolations jp parsed schema.vars := by
                unfold claimConvViolations
                rw [List.mem_filterMap]
                exact ⟨(k, cfg), lookupVar_mem _ _ _ hlv, by simp [hle, hv, hc]⟩
              have : claimConvViolations jp parsed schema.vars = [] := by
                have h2 := hcv
                unfold claimViolations at h2
                exact (List.append_eq_nil.mp h2).2
              rw [this] at hmem
              cases hmem
    · intro k v hle hlv
      exact passThrough_hit _ _ _ _ _ hnp hle hlv

/-- Witness for C5 at the instance of the claim: the defaulted schema key
is present in the output. -/
theorem c5_output_shape_witness :
    (lookupJs ([("PORT", JsValue.num (JsNumber.finite 3000))] : JsEnv Unit)
        "PORT").isSome ↔
      ((∃ cfg, lookupVar ([("PORT", VarSpec.mk (some "number")
          (some (JsValue.num (JsNumber.finite 3000))))] :
            List (String × VarSpec Unit)) "PORT" = some cfg ∧
          ((∃ v, lookupEnv [("PORT", "")] "PORT" = some v ∧ v ≠ "") ∨
            cfg.dflt.isSome))
       ∨ ((lookupEnv [("PORT", "")] "PORT").isSome ∧
          lookupVar ([("PORT", VarSpec.mk (some "number")
            (some (JsValue.num (JsNumber.finite 3000))))] :
              List (String × VarSpec Unit)) "PORT" = none)) :=
  ((c5_output_shape.1 Unit jsonNone [("PORT", "")]
    (Schema.mk [] [("PORT", VarSpec.mk (some "number")
      (some (.num (.finite 3000))))])
    [("PORT", .num (.finite 3000))] (by decide) (by decide) (by decide)).1 "PORT")

end VectroEnv

namespace VectroEnv

lemma splitLines_single :
    ∀ (cs : List Char), '\n' ∉ cs → splitLines cs = [cs] := by
  intro cs
  induction cs with
  | nil => intro _; rfl
  | cons c rest ih =>
    intro h
    have hc : ¬ c = '\n' := fun hh => h (by simp [hh])
    have hrest : '\n' ∉ rest := fun hh => h (by simp [hh])
    have h2 := ih hrest
    cases rest with
    | nil =>
      rw [splitLines.eq_def]
      split
      · rename_i heq; cases heq
      · rename_i heq; cases heq
      · rename_i heq; cases heq; exact absurd rfl hc
      · rename_i heq
        injection heq with hh1 hh2
        subst hh1
        subst hh2
        rfl
    | cons c2 r2 =>
      have hc2 : ¬ c2 = '\n' := fun hh => hrest (by simp [hh])
      rw [splitLines.eq_def]
      split
      · rename_i heq; cases heq
      · rename_i heq
        injection heq with hh1 hh2
        injection hh2 with hh3 _
        exact absurd hh3 hc2
      · rename_i heq
        injection heq with hh1 _
        exact absurd hh1 hc
      · rename_i x xs heq
        injection heq with hh1 hh2
        subst hh1
        subst hh2
        rw [h2]

lemma dropWhile_self (p : Char → Bool) (cs : List Char)
    (h : ∀ c, cs.head? = some c → p c = false) : cs.dropWhile p = cs := by
  cases cs with
  | nil => rfl
  | cons c rest =>
    have hc := h c rfl
    simp [List.dropWhile_cons, hc]

lemma head?_dropWhile_false (p : Char → Bool) :
    ∀ (cs : List Char) (c : Char), (cs.dropWhile p).head? = some c →
      p c = false := by
  intro cs
  induction cs with
  | nil => intro c h; cases h
  | cons x rest ih =>
    intro c h
    by_cases hx : p x
    · rw [List.dropWhile_cons, if_pos hx] at h
      exact ih c h
    · rw [List.dropWhile_cons, if_neg hx] at h
      have hxc : x = c := by simpa using h
      subst hxc
      exact (Bool.not_eq_true _).mp hx

lemma jsTrim_noop (cs : List Char)
    (h1 : ∀ c, cs.head? = some c → isJsWs c = false)
    (h2 : ∀ c, cs.getLast? = some c → isJsWs c = false) :
    jsTrimList cs = cs := by
  unfold jsTrimList
  rw [dropWhile_self isJsWs cs h1]
  rw [dropWhile_self isJsWs cs.reverse
    (fun c hc => h2 c (by rwa [List.head?_reverse] at hc))]
  exact List.reverse_reverse cs

lemma jsTrimList_prefix_core (cs : List Char) :
    jsTrimList cs <+: cs.dropWhile isJsWs := by
  unfold jsTrimList
  have h := List.dropWhile_suffix (l := (cs.dropWhile isJsWs).reverse) (p := isJsWs)
  conv => rhs; rw [← List.reverse_reverse (cs.dropWhile isJsWs)]
  exact List.reverse_prefix.mpr h

lemma head?_eq_of_pre {l p : List Char} (h : p <+: l) (hne : p ≠ []) :
    p.head? = l.head? := by
  obtain ⟨t, rfl⟩ := h
  cases p with
  | nil => exact absurd rfl hne
  | cons c r => rfl

lemma jsTrimList_head_ws (cs : List Char) :
    ∀ c, (jsTrimList cs).head? = some c → isJsWs c = false := by
  intro c h
  have hne : jsTrimList cs ≠ [] := by
    intro hh; rw [hh] at h; cases h
  rw [head?_eq_of_pre (jsTrimList_prefix_core cs) hne] at h
  exact head?_dropWhile_false isJsWs cs c h

lemma jsTrimList_getLast_ws (cs : List Char) :
    ∀ c, (jsTrimList cs).getLast? = some c → isJsWs c = false := by
  intro c h
  unfold jsTrimList at h
  rw [List.getLast?_reverse] at h
  exact head?_dropWhile_false isJsWs _ c h

lemma jsTrim_idem (cs : List Char) :
    jsTrimList (jsTrimList cs) = jsTrimList cs :=
  jsTrim_noop _ (jsTrimList_head_ws cs) (jsTrimList_getLast_ws cs)

lemma mem_jsTrimList {x : Char} {cs : List Char} (h : x ∈ jsTrimList cs) :
    x ∈ cs := by
  unfold jsTrimList at h
  rw [List.mem_reverse] at h
  have h2 : x ∈ (cs.dropWhile isJsWs).reverse :=
    (List.dropWhile_sublist _).subset h
  rw [List.mem_reverse] at h2
  exact (List.dropWhile_sublist _).subset h2

lemma splitAtEq?_some :
    ∀ (cs pre post : List Char), splitAtEq? cs = some (pre, post) →
      cs = pre ++ '=' :: post ∧ '=' ∉ pre := by
  intro cs
  induction cs with
  | nil => intro pre post h; cases h
  | cons c rest ih =>
    intro pre post h
    by_cases hc : c = '='
    · subst hc
      rw [splitAtEq?.eq_def] at h
      dsimp only at h
      rw [if_pos rfl] at h
      cases h
      exact ⟨rfl, List.not_mem_nil '='⟩
    · rw [splitAtEq?.eq_def] at h
      dsimp only at h
      rw [if_neg hc] at h
      cases h2 : splitAtEq? rest with
      | none => rw [h2] at h; cases h
      | some p2 =>
        obtain ⟨p2a, p2b⟩ := p2
        rw [h2] at h
        simp only [Option.map_some'] at h
        obtain ⟨hpre, hpost⟩ : c :: p2a = pre ∧ p2b = post := by
          have := h
          simp only [Option.some.injEq, Prod.mk.injEq] at this
          exact this
        subst hpre
        subst hpost
        obtain ⟨ha, hb⟩ := ih p2a p2b h2
        constructor
        · rw [ha]; rfl
        · intro hm
          rcases List.mem_cons.mp hm with h3 | h3
          · exact hc h3.symm
          · exact hb h3

lemma splitAtEq?_append :
    ∀ (pre post : List Char), '=' ∉ pre →
      splitAtEq? (pre ++ '=' :: post) = some (pre, post) := by
  intro pre
  induction pre with
  | nil => intro post _; rfl
  | cons c rest ih =>
    intro post h
    have hc : ¬ c = '=' := fun hh => h (by simp [hh])
    have hrest : '=' ∉ rest := fun hh => h (by simp [hh])
    rw [List.cons_append, splitAtEq?.eq_def]
    simp only [if_neg hc]
    rw [ih post hrest]
    rfl

lemma escBackslash_id {cs : List Char} (h : '\\' ∉ cs) : escBackslash cs = cs := by
  induction cs with
  | nil => rfl
  | cons c rest ih =>
    have hc : ¬ c = '\\' := fun hh => h (by simp [hh])
    have hrest : '\\' ∉ rest := fun hh => h (by simp [hh])
    rw [escBackslash.eq_def]
    simp [hc, ih hrest]

lemma mem_escQuote {x : Char} :
    ∀ {cs : List Char}, x ∈ escQuote cs → x ∈ cs ∨ x = '\\' := by
  intro cs
  induction cs with
  | nil =>
    intro h
    rw [escQuote.eq_def] at h
    cases h
  | cons c rest ih =>
    intro h
    by_cases hc : c = '"'
    · subst hc
      rw [escQuote.eq_def] at h
      simp only [if_pos rfl] at h
      rcases List.mem_cons.mp h with h2 | h2
      · exact Or.inr h2
      · rcases List.mem_cons.mp h2 with h3 | h3
        · exact Or.inl (by simp [h3])
        · rcases ih h3 with h4 | h4
          · exact Or.inl (List.mem_cons_of_mem _ h4)
          · exact Or.inr h4
    · rw [escQuote.eq_def] at h
      simp only [if_neg hc] at h
      rcases List.mem_cons.mp h with h2 | h2
      · exact Or.inl (by simp [h2])
      · rcases ih h2 with h4 | h4
        · exact Or.inl (List.mem_cons_of_mem _ h4)
        · exact Or.inr h4

lemma bsq_escQuote : ∀ {cs : List Char}, '\\' ∉ cs → bsq (escQuote cs) = true := by
  intro cs
  induction cs with
  | nil => intro _; rfl
  | cons c rest ih =>
    intro h
    have hc : ¬ c = '\\' := fun hh => h (by simp [hh])
    have hrest : '\\' ∉ rest := fun hh => h (by simp [hh])
    by_cases hq : c = '"'
    · subst hq
      rw [escQuote.eq_def]
      simp only [if_pos rfl]
      rw [bsq.eq_def]
      simp [bsq, ih hrest]
    · rw [escQuote.eq_def]
      simp only [if_neg hq]
      rw [bsq.eq_def]
      simp [hc, ih hrest]

lemma replaceEsc_no_bs (t r : Char) :
    ∀ (cs : List Char), '\\' ∉ cs → replaceEsc t r cs = cs := by
  intro cs
  induction cs with
  | nil => intro _; rfl
  | cons c rest ih =>
    intro h
    have hc : ¬ c = '\\' := fun hh => h (by simp [hh])
    have hrest : '\\' ∉ rest := fun hh => h (by simp [hh])
    rw [replaceEsc.eq_def]
    simp [hc, ih hrest]

lemma replaceEsc_bsq (t r : Char) (ht : ¬ t = '"') :
    ∀ (n : Nat) (cs : List Char), cs.length ≤ n → bsq cs = true →
      replaceEsc t r cs = cs := by
  intro n
  induction n with
  | zero =>
    intro cs hl _
    have : cs = [] := List.eq_nil_of_length_eq_zero (Nat.le_zero.mp hl)
    subst this; rfl
  | succ n ih =>
    intro cs hl hb
    cases cs with
    | nil => rfl
    | cons c rest =>
      by_cases hc : c = '\\'
      · subst hc
        cases rest with
        | nil =>
          rw [bsq.eq_def] at hb
          simp at hb
        | cons c2 r2 =>
          by_cases h2 : c2 = '"'
          · subst h2
            have hb2 : bsq r2 = true := by
              rw [bsq.eq_def] at hb
              simpa using hb
            have hqt : ¬ ('"' : Char) = t := fun hh => ht hh.symm
            have hstep1 : replaceEsc t r ('\\' :: '"' :: r2) =
                '\\' :: replaceEsc t r ('"' :: r2) := by
              rw [replaceEsc.eq_def]
              simp [hqt]
            have hstep2 : replaceEsc t r ('"' :: r2) =
                '"' :: replaceEsc t r r2 := by
              rw [replaceEsc.eq_def]
              simp [(by decide : ¬ ('"' : Char) = '\\')]
            have hr2 : r2.length ≤ n := by
              simp only [List.length_cons] at hl
              omega
            rw [hstep1, hstep2, ih r2 hr2 hb2]
          · rw [bsq.eq_def] at hb
            simp [h2] at hb
      · have hbrest : bsq rest = true := by
          rw [bsq.eq_def] at hb
          cases rest with
          | nil => simpa [hc] using hb
          | cons x xs => simpa [hc] using hb
        have hr : rest.length ≤ n := by
          simp only [List.length_cons] at hl
          omega
        rw [replaceEsc.eq_def]
        simp only [if_neg hc]
        rw [ih rest hr hbrest]

lemma replaceEsc_unescQuote :
    ∀ (cs : List Char), '\\' ∉ cs → replaceEsc '"' '"' (escQuote cs) = cs := by
  intro cs
  induction cs with
  | nil => intro _; rfl
  | cons c rest ih =>
    intro h
    have hc : ¬ c = '\\' := fun hh => h (by simp [hh])
    have hrest : '\\' ∉ rest := fun hh => h (by simp [hh])
    by_cases hq : c = '"'
    · subst hq
      rw [escQuote.eq_def]
      dsimp only
      rw [if_pos rfl, replaceEsc.eq_def]
      dsimp only
      rw [if_pos rfl, if_pos rfl, ih hrest]
    · rw [escQuote.eq_def]
      dsimp only
      rw [if_neg hq, replaceEsc.eq_def]
      dsimp only
      rw [if_neg hc, ih hrest]

lemma unescapeJs_escQuote {cs : List Char} (h : '\\' ∉ cs) :
    unescapeJs (escQuote cs) = cs := by
  unfold unescapeJs
  have hb := bsq_escQuote h
  rw [replaceEsc_bsq 'n' '\n' (by decide) (escQuote cs).length (escQuote cs)
      le_rfl hb,
    replaceEsc_bsq 'r' '\r' (by decide) (escQuote cs).length (escQuote cs)
      le_rfl hb,
    replaceEsc_bsq 't' '\t' (by decide) (escQuote cs).length (escQuote cs)
      le_rfl hb,
    replaceEsc_bsq '\\' '\\' (by decide) (escQuote cs).length (escQuote cs)
      le_rfl hb,
    replaceEsc_unescQuote cs h]
  exact replaceEsc_no_bs '\'' '\'' cs h

lemma tokenizeF_lits :
    ∀ (n : Nat) (cs : List Char), '$' ∉ cs → cs.length ≤ n →
      tokenizeF n cs = cs.map Tok.lit := by
  intro n
  induction n with
  | zero =>
    intro cs _ hl
    have : cs = [] := List.eq_nil_of_length_eq_zero (Nat.le_zero.mp hl)
    subst this; rfl
  | succ n ih =>
    intro cs h hl
    cases cs with
    | nil => rfl
    | cons c rest =>
      have hc : ¬ c = '$' := fun hh => h (by simp [hh])
      have hrest : '$' ∉ rest := fun hh => h (by simp [hh])
      have hr : rest.length ≤ n := by
        simp only [List.length_cons] at hl
        omega
      rw [tokenizeF.eq_def]
      simp only [if_neg hc]
      rw [ih rest hrest hr]
      rfl

lemma goToks_lits (parsed : Env) (ext : Lookup)
    (step : String → List String → Except ExpandError (List Char))
    (vis : List String) :
    ∀ (cs : List Char), goToks parsed ext step vis (cs.map Tok.lit) = .ok cs := by
  intro cs
  induction cs with
  | nil => rfl
  | cons c rest ih =>
    rw [List.map_cons, goToks.eq_def]
    dsimp only
    rw [ih]
    rfl

lemma expandFuel_succ (parsed : Env) (ext : Lookup) (f : Nat) (value : String)
    (vis : List String) :
    expandFuel parsed ext (Nat.succ f) value vis =
      goToks parsed ext (fun v' vis' => expandFuel parsed ext f v' vis') vis
        (tokenize value.data) := by
  rw [expandFuel.eq_def]

lemma expand_no_dollar (ext : Lookup) (parsed : Env) (v : String)
    (h : '$' ∉ v.data) : expandVariables ext v parsed [] 0 = .ok v := by
  unfold expandVariables
  have h101 : (101 : Nat) - 0 = Nat.succ 100 := rfl
  rw [h101, expandFuel_succ]
  unfold tokenize
  rw [tokenizeF_lits v.data.length v.data h le_rfl, goToks_lits]
  rfl

lemma head?_append_left {l t : List Char} (h : l ≠ []) :
    (l ++ t).head? = l.head? := by
  cases l with
  | nil => exact absurd rfl h
  | cons c r => rfl

lemma generate_single (k v : String) :
    generate [(k, v)] none [] true =
      ⟨k.data ++ '=' ::
        (if needsQuotes v.data then
          '"' :: (escQuote (escBackslash v.data) ++ ['"'])
        else v.data)⟩ := by
  unfold generate
  simp [insertionSortStr, insertStr, lookupEnv, joinLinesNl]

lemma parse_single (ext : Lookup) (line : String) (hnl : '\n' ∉ line.data) :
    parse ext line =
      if jsTrimList line.data = [] ∨ (jsTrimList line.data).head? = some '#'
      then .ok []
      else processLine ext (jsTrimList line.data) [] := by
  unfold parse
  rw [splitLines_single line.data hnl]
  have h1 : parseLinesF ext [line.data].length [line.data] [] =
      (if jsTrimList line.data = [] ∨ (jsTrimList line.data).head? = some '#'
       then parseLinesF ext 0 [] []
       else
         match processLine ext (jsTrimList line.data) [] with
         | .error e => .error e
         | .ok acc2 => parseLinesF ext 0 [] acc2) := by
    rw [parseLinesF.eq_def]
    rfl
  rw [h1]
  by_cases hskip : jsTrimList line.data = [] ∨
      (jsTrimList line.data).head? = some '#'
  · rw [if_pos hskip, if_pos hskip]
    rfl
  · rw [if_neg hskip, if_neg hskip]
    cases h : processLine ext (jsTrimList line.data) [] <;> rfl

end VectroEnv

namespace VectroEnv

lemma mem_of_getLast? {l : List Char} {c : Char} (h : l.getLast? = some c) :
    c ∈ l := by
  rw [← List.head?_reverse] at h
  have hm : c ∈ l.reverse := by
    cases hr : l.reverse with
    | nil => rw [hr] at h; cases h
    | cons x xs =>
      rw [hr] at h
      cases h
      exact List.mem_cons_self _ _
  rwa [List.mem_reverse] at hm

lemma getLast?_cons_ne_none (x : Char) (xs : List Char) :
    (x :: xs).getLast? ≠ none := by
  induction xs generalizing x with
  | nil => intro h; cases h
  | cons y ys ih =>
    rw [List.getLast?_cons_cons]
    exact ih y

lemma processLine_split (ext : Lookup) (pre post : List Char) (acc : Env)
    (hpe : '=' ∉ pre) (hk : ¬ jsTrimList pre = []) :
    processLine ext (pre ++ '=' :: post) acc =
      match expandVariables ext ⟨parseValueChars (jsTrimList post)⟩ acc [] 0 with
      | .error e => .error e
      | .ok ev => .ok (upsertEnv acc ⟨jsTrimList pre⟩ ev) := by
  unfold processLine
  rw [splitAtEq?_append pre post hpe]
  dsimp only
  rw [if_neg hk]

lemma parse_kv_line (ext : Lookup) (k v : String)
    (hk0 : k.data ≠ [])
    (hktrim : jsTrimList k.data = k.data)
    (hkeq : '=' ∉ k.data)
    (hknl : '\n' ∉ k.data)
    (hkhash : k.data.head? ≠ some '#')
    (hkhw : ∀ c, k.data.head? = some c → isJsWs c = false)
    (hv1 : '$' ∉ v.data) (hv2 : '\\' ∉ v.data) (hv3 : '\n' ∉ v.data) :
    parse ext (generate [(k, v)] none [] true) = .ok [(k, v)] := by
  rw [generate_single, escBackslash_id hv2]
  by_cases hq : needsQuotes v.data
  · rw [if_pos hq]
    have hnlL : '\n' ∉ k.data ++ '=' :: ('"' :: (escQuote v.data ++ ['"'])) := by
      intro hm
      rcases List.mem_append.mp hm with hm1 | hm2
      · exact hknl hm1
      · rcases List.mem_cons.mp hm2 with h1 | h1
        · exact absurd h1 (by decide)
        · rcases List.mem_cons.mp h1 with h2 | h2
          · exact absurd h2 (by decide)
          · rcases List.mem_append.mp h2 with h3 | h3
            · rcases mem_escQuote h3 with h4 | h4
              · exact hv3 h4
              · exact absurd h4 (by decide)
            · rcases List.mem_cons.mp h3 with h4 | h4
              · exact absurd h4 (by decide)
              · cases h4
    rw [parse_single ext _ hnlL]
    have htrim : jsTrimList (k.data ++ '=' :: ('"' :: (escQuote v.data ++ ['"']))) =
        k.data ++ '=' :: ('"' :: (escQuote v.data ++ ['"'])) := by
      apply jsTrim_noop
      · intro c hc
        rw [head?_append_left hk0] at hc
        exact hkhw c hc
      · intro c hc
        have hL2 : k.data ++ '=' :: ('"' :: (escQuote v.data ++ ['"'])) =
            (k.data ++ '=' :: '"' :: escQuote v.data) ++ ['"'] := by simp
        rw [hL2, List.getLast?_concat] at hc
        cases hc
        decide
    rw [htrim]
    have hguard : ¬ (k.data ++ '=' :: ('"' :: (escQuote v.data ++ ['"'])) = [] ∨
        (k.data ++ '=' :: ('"' :: (escQuote v.data ++ ['"']))).head? = some '#') := by
      intro hor
      rcases hor with h1 | h1
      · exact hk0 (List.append_eq_nil.mp h1).1
      · rw [head?_append_left hk0] at h1
        exact hkhash h1
    rw [if_neg hguard]
    rw [processLine_split ext k.data _ [] hkeq (by rw [hktrim]; exact hk0)]
    have hbody : jsTrimList ('"' :: (escQuote v.data ++ ['"'])) =
        '"' :: (escQuote v.data ++ ['"']) := by
      apply jsTrim_noop
      · intro c hc
        cases hc
        decide
      · intro c hc
        have hb2 : ('"' : Char) :: (escQuote v.data ++ ['"']) =
            ('"' :: escQuote v.data) ++ ['"'] := by simp
        rw [hb2, List.getLast?_concat] at hc
        cases hc
        decide
    rw [hbody]
    have hpv : parseValueChars ('"' :: (escQuote v.data ++ ['"'])) = v.data := by
      unfold parseValueChars
      rw [if_pos]
      · have hdrop : (('"' : Char) :: (escQuote v.data ++ ['"'])).drop 1 =
            escQuote v.data ++ ['"'] := rfl
        rw [hdrop, List.dropLast_concat]
        exact unescapeJs_escQuote hv2
      · left
        constructor
        · rfl
        · have hb2 : ('"' : Char) :: (escQuote v.data ++ ['"']) =
              ('"' :: escQuote v.data) ++ ['"'] := by simp
          rw [hb2, List.getLast?_concat]
    rw [hpv]
    have hveta : (⟨v.data⟩ : String) = v := rfl
    rw [hveta, expand_no_dollar ext [] v hv1, hktrim]
    rfl
  · rw [if_neg hq]
    have hvfacts : ∀ x ∈ v.data, isJsWs x = false ∧ x ≠ '"' ∧ x ≠ '\'' := by
      intro x hx
      have h0 := List.any_eq_false.mp (Bool.eq_false_iff.mpr hq) x hx
      simp only [Bool.or_eq_true, beq_iff_eq, not_or] at h0
      exact ⟨(Bool.not_eq_true _).mp h0.1.1.1.1.1.1, h0.1.1.1.1.1.2,
        h0.1.1.1.1.2⟩
    have hnlL : '\n' ∉ k.data ++ '=' :: v.data := by
      intro hm
      rcases List.mem_append.mp hm with hm1 | hm2
      · exact hknl hm1
      · rcases List.mem_cons.mp hm2 with h1 | h1
        · exact absurd h1 (by decide)
        · exact hv3 h1
    rw [parse_single ext _ hnlL]
    have hlast2 : ∀ c, (k.data ++ '=' :: v.data).getLast? = some c →
        isJsWs c = false := by
      intro c hc
      cases hvd : v.data with
      | nil =>
        rw [hvd] at hc
        have hL2 : k.data ++ '=' :: ([] : List Char) = k.data ++ ['='] := rfl
        rw [hL2, List.getLast?_concat] at hc
        cases hc
        decide
      | cons x xs =>
        rw [List.getLast?_append] at hc
        rw [hvd, List.getLast?_cons_cons] at hc
        cases hgl : (x :: xs).getLast? with
        | none => exact absurd hgl (getLast?_cons_ne_none x xs)
        | some y =>
          rw [hgl] at hc
          have hsome : (some y).or k.data.getLast? = some y := rfl
          rw [hsome] at hc
          injection hc with hyc
          subst hyc
          have hy : y ∈ v.data := by
            rw [hvd]
            exact mem_of_getLast? hgl
          exact (hvfacts y hy).1
    have htrim : jsTrimList (k.data ++ '=' :: v.data) = k.data ++ '=' :: v.data := by
      apply jsTrim_noop
      · intro c hc
        rw [head?_append_left hk0] at hc
        exact hkhw c hc
      · exact hlast2
    rw [htrim]
    have hguard : ¬ (k.data ++ '=' :: v.data = [] ∨
        (k.data ++ '=' :: v.data).head? = some '#') := by
      intro hor
      rcases hor with h1 | h1
      · exact hk0 (List.append_eq_nil.mp h1).1
      · rw [head?_append_left hk0] at h1
        exact hkhash h1
    rw [if_neg hguard]
    rw [processLine_split ext k.data _ [] hkeq (by rw [hktrim]; exact hk0)]
    have hvtrim : jsTrimList v.data = v.data := by
      cases hvd : v.data with
      | nil => rfl
      | cons x xs =>
        rw [← hvd]
        apply jsTrim_noop
        · intro c hc
          have hcm : c ∈ v.data := by
            rw [hvd] at hc ⊢
            cases hc
            exact List.mem_cons_self _ _
          exact (hvfacts c hcm).1
        · intro c hc
          exact (hvfacts c (mem_of_getLast? hc)).1
    rw [hvtrim]
    have hpv : parseValueChars v.data = v.data := by
      unfold parseValueChars
      rw [if_neg]
      intro hor
      rcases hor with ⟨h1, _⟩ | ⟨h1, _⟩
      · cases hvd : v.data with
        | nil => rw [hvd] at h1; cases h1
        | cons x xs =>
          rw [hvd] at h1
          injection h1 with hx
          exact (hvfacts x (by rw [hvd]; exact List.mem_cons_self _ _)).2.1 hx
      · cases hvd : v.data with
        | nil => rw [hvd] at h1; cases h1
        | cons x xs =>
          rw [hvd] at h1
          injection h1 with hx
          exact (hvfacts x (by rw [hvd]; exact List.mem_cons_self _ _)).2.2 hx
    rw [hpv]
    have hveta : (⟨v.data⟩ : String) = v := rfl
    rw [hveta, expand_no_dollar ext [] v hv1, hktrim]
    rfl

/-- C6 counterexample.  The pair obtained by parsing the line K=a backslash
n b has a dollar-free value, yet serializing and re-parsing corrupts it:
generate doubles the backslash, and the unescape chain of the re-parse
turns the second backslash and the n into a real newline. -/
theorem c6_counterexample :
    parse extEmpty "K=a\\nb" = .ok [("K", "a\\nb")] ∧
    '$' ∉ ("a\\nb" : String).data ∧
    parse extEmpty (generate [("K", "a\\nb")] none [] true) =
      .ok [("K", "a\\\nb")] ∧
    ("a\\\nb" : String) ≠ "a\\nb" := by
  refine ⟨by decide, by decide, by decide, by decide⟩

/-- C6 (amended).  For a key/value pair obtained by parsing one valid
KEY=VALUE line, serializing the mapping with generate and parsing the
output again returns exactly the same value provided the value contains
no dollar sign, no backslash and no newline; a backslash or a newline in
the value can be corrupted by the sequential unescape chain or by line
splitting, as the counterexample shows. -/
theorem c6_roundtrip :
    ∀ (ext ext2 : Lookup) (line k v : String),
      parse ext line = .ok [(k, v)] →
      '\n' ∉ line.data →
      '$' ∉ v.data → '\\' ∉ v.data → '\n' ∉ v.data →
      parse ext2 (generate [(k, v)] none [] true) = .ok [(k, v)] := by
  intro ext ext2 line k v hp hnl hv1 hv2 hv3
  rw [parse_single ext line hnl] at hp
  by_cases hskip : jsTrimList line.data = [] ∨
      (jsTrimList line.data).head? = some '#'
  · rw [if_pos hskip] at hp
    simp at hp
  · rw [if_neg hskip] at hp
    push_neg at hskip
    obtain ⟨hl0ne, hl0hash⟩ := hskip
    unfold processLine at hp
    cases hsp : splitAtEq? (jsTrimList line.data) with
    | none => rw [hsp] at hp; simp at hp
    | some p =>
      obtain ⟨pre, post⟩ := p
      rw [hsp] at hp
      dsimp only at hp
      by_cases hkne : jsTrimList pre = []
      · rw [if_pos hkne] at hp
        simp at hp
      · rw [if_neg hkne] at hp
        cases hexp : expandVariables ext ⟨parseValueChars (jsTrimList post)⟩ [] [] 0 with
        | error e => rw [hexp] at hp; simp at hp
        | ok ev =>
          rw [hexp] at hp
          injection hp with hp2
          have hkv : (⟨jsTrimList pre⟩ : String) = k ∧ ev = v := by
            simpa [upsertEnv] using hp2
          obtain ⟨hkk, hvv⟩ := hkv
          have hkdata : k.data = jsTrimList pre := by rw [← hkk]
          obtain ⟨hl0eq, hpre_eq⟩ := splitAtEq?_some _ pre post hsp
          have hpre_ne : pre ≠ [] := by
            intro hh
            rw [hh] at hkne
            exact hkne rfl
          have hl0headpre : (jsTrimList line.data).head? = pre.head? := by
            rw [hl0eq]
            exact head?_append_left hpre_ne
          have hpre_head_ws : ∀ c, pre.head? = some c → isJsWs c = false := by
            intro c hc
            exact jsTrimList_head_ws line.data c (by rw [hl0headpre]; exact hc)
          have hpre_drop : pre.dropWhile isJsWs = pre :=
            dropWhile_self isJsWs pre hpre_head_ws
          have hkpre : k.data <+: pre := by
            rw [hkdata]
            have h2 := jsTrimList_prefix_core pre
            rwa [hpre_drop] at h2
          have hk0 : k.data ≠ [] := by rw [hkdata]; exact hkne
          have hkhead : k.data.head? = pre.head? := head?_eq_of_pre hkpre hk0
          apply parse_kv_line
          · exact hk0
          · rw [hkdata]
            exact jsTrim_idem pre
          · intro hm
            exact hpre_eq (hkpre.subset hm)
          · intro hm
            apply hnl
            have hmem2 : '\n' ∈ jsTrimList line.data := by
              rw [hl0eq]
              exact List.mem_append.mpr (Or.inl (hkpre.subset hm))
            exact mem_jsTrimList hmem2
          · rw [hkhead, ← hl0headpre]
            exact hl0hash
          · intro c hc
            rw [hkhead] at hc
            exact hpre_head_ws c hc
          · exact hv1
          · exact hv2
          · exact hv3

/-- Witness for C6 at a concrete line whose value needs quoting but has
no dollar sign, backslash or newline. -/
theorem c6_roundtrip_witness :
    parse extEmpty (generate [("K", "hello world")] none [] true) =
      .ok [("K", "hello world")] :=
  c6_roundtrip extEmpty extEmpty "K=hello world" "K" "hello world"
    (by decide) (by decide) (by decide) (by decide) (by decide)

end VectroEnv
